import Mathlib

/-!
Verification of the pairwise N-body summation engine and the iterative
centre-finding algorithms of `clustertools` (`clustertools/analysis/functions.py`),
shallowly embedded over exact rational arithmetic.

Modelling conventions:
* float64 values are embedded as `ℚ`; a float division whose denominator is
  exactly 0 produces a non-finite value (`±inf` or `NaN`), which we model as
  `none : Option ℚ`; a non-finite operand makes every further sum non-finite,
  which `fadd` reflects (`none` absorbs).
* the floating-point square root primitive is threaded through every function
  that uses it as an explicit parameter `sq : ℚ → ℚ`; theorems that need facts
  about particular square roots state them as hypotheses on `sq`.
* `numba`'s `prange` fork-join loop is modelled, following the specification's
  concurrency model (§5), as thread-local per-row accumulators combined by a
  final reduction.
-/

namespace Clustertools

/-- A row of the `(ntot, 4)` array handed to the numba kernels
(`np.array([cluster.x, cluster.y, cluster.z, cluster.m]).T`):
position components and the mass (`cluster[i, 3]`). -/
structure Star where
  x : ℚ
  y : ℚ
  z : ℚ
  m : ℚ
deriving DecidableEq, Inhabited

/-- Modelled from the spec: `distance` is imported from `util/recipes.py`,
which is not under `src/`; §4.1 of the spec fixes it as the Euclidean
distance of the two particles' positions ("for each pair compute Euclidean
distance ... in 3D").  `sq` stands for the floating-point square root. -/
def distance (sq : ℚ → ℚ) (s1 s2 : Star) : ℚ :=
  sq ((s2.x - s1.x) ^ 2 + (s2.y - s1.y) ^ 2 + (s2.z - s1.z) ^ 2)

/-- `cluster[i]` on the star array (indices produced by the loops are always
in range). -/
def sget (c : List Star) (i : ℕ) : Star :=
  c.getD i default

/-- Checked float division: a zero denominator yields a non-finite value
(`inf`, `-inf` or `NaN` in float64), modelled as `none`. -/
def fdiv (a b : ℚ) : Option ℚ :=
  if b = 0 then none else some (a / b)

/-- Float addition on possibly non-finite values: any non-finite operand
makes the result non-finite. -/
def fadd : Option ℚ → Option ℚ → Option ℚ
  | some a, some b => some (a + b)
  | _, _ => none

/-- Sum of a list of possibly non-finite values. -/
def sumM (l : List (Option ℚ)) : Option ℚ :=
  l.foldr fadd (some 0)

/-- `pot[k] += v` on an accumulator array modelled as a function. -/
def bump (f : ℕ → Option ℚ) (k : ℕ) (v : Option ℚ) : ℕ → Option ℚ :=
  Function.update f k (fadd (f k) v)

/-- The inner loop range `range(i+1, len(cluster))` paired with its `i`. -/
def innerPairs (i n : ℕ) : List (ℕ × ℕ) :=
  (List.range' (i + 1) (n - (i + 1))).map fun j => (i, j)

/-- The pair ordering of the double loop
`for i in range(len(cluster)-1): for j in range(i+1, len(cluster))`. -/
def pairs (n : ℕ) : List (ℕ × ℕ) :=
  (List.range (n - 1)).flatMap fun i => innerPairs i n

/-- The contribution computed for one pair in `_potential_energy` /
`_potential_energy_parallel`: `r = distance(cluster[i], cluster[j])`,
`m2 = cluster[i, 3] * cluster[j, 3]`, contribution `-m2 / r`. -/
def pairContrib (sq : ℚ → ℚ) (c : List Star) (ij : ℕ × ℕ) : Option ℚ :=
  fdiv (-((sget c ij.1).m * (sget c ij.2).m))
    (distance sq (sget c ij.1) (sget c ij.2))

/-- One inner-loop body of `_potential_energy_parallel` (no zero-distance
print there): `pot[i] += -m2/r; pot[j] += -m2/r`. -/
def potStepPar (sq : ℚ → ℚ) (c : List Star) (f : ℕ → Option ℚ) (ij : ℕ × ℕ) :
    ℕ → Option ℚ :=
  bump (bump f ij.1 (pairContrib sq c ij)) ij.2 (pairContrib sq c ij)

/-- One inner-loop body of `_potential_energy`: the same accumulation, plus
the observability line `if r==0: print(i,j,r)`, whose emissions we collect
in the second component. -/
def potStep (sq : ℚ → ℚ) (c : List Star)
    (s : (ℕ → Option ℚ) × List (ℕ × ℕ)) (ij : ℕ × ℕ) :
    (ℕ → Option ℚ) × List (ℕ × ℕ) :=
  (potStepPar sq c s.1 ij,
   if distance sq (sget c ij.1) (sget c ij.2) = 0
     then s.2 ++ [ij] else s.2)

/-- Embeds `_potential_energy` (functions.py:588-616): `pot = [0.0]*len`, the
`i<j` double loop, returning the per-particle array together with the list
of pairs printed by the `r==0` guard. -/
def potential_energy (sq : ℚ → ℚ) (c : List Star) :
    List (Option ℚ) × List (ℕ × ℕ) :=
  let res := (pairs c.length).foldl (potStep sq c) (fun _ => some 0, [])
  ((List.range c.length).map res.1, res.2)

/-- Embeds `_potential_energy_parallel` (functions.py:619-646): the same
double loop with the outer loop a `numba.prange`.  Following §5 of the spec,
each worker (one outer index `i`) accumulates into a thread-local array, and
the fork-join barrier is followed by a pointwise reduction of the rows. -/
def potential_energy_parallel (sq : ℚ → ℚ) (c : List Star) : List (Option ℚ) :=
  let rows := (List.range (c.length - 1)).map fun i =>
    (innerPairs i c.length).foldl (potStepPar sq c) (fun _ => some 0)
  (List.range c.length).map fun k => sumM (rows.map (· k))

/-- Embeds `_weighted_inverse_distance_sum` (functions.py:854-879):
`weighted_sum = 0.0`, the `i<j` double loop, `weighted_sum += m2 / r`.
There is no zero-distance guard in this function. -/
def weighted_inverse_distance_sum (sq : ℚ → ℚ) (c : List Star) : Option ℚ :=
  (pairs c.length).foldl
    (fun ws ij =>
      fadd ws (fdiv ((sget c ij.1).m * (sget c ij.2).m)
        (distance sq (sget c ij.1) (sget c ij.2))))
    (some 0)

/-- Embeds `virial_radius_inverse_distance` (functions.py:784-852) with
`full=True`, `projected=False`: `r_v = (np.sum(ms))**2 / (2*partial_sum)`.
The frame bookkeeping (`save_cluster` / `to_centre` / `return_cluster`, from
`cluster/operations.py`, not under `src/`) is modelled from the spec:
`to_centre` translates every position by the same offset (§4.2), which leaves
each pairwise distance and each mass unchanged, so the embedding works
directly in the caller's frame. -/
def virial_radius_inverse_distance (sq : ℚ → ℚ) (c : List Star) : Option ℚ :=
  match weighted_inverse_distance_sum sq c with
  | none => none
  | some ps => fdiv (((c.map Star.m).sum) ^ 2) (2 * ps)

/-! ### Arithmetic lemmas for the possibly-non-finite sums -/

theorem fadd_zero_left (x : Option ℚ) : fadd (some 0) x = x := by
  cases x <;> simp [fadd]

theorem fadd_zero_right (x : Option ℚ) : fadd x (some 0) = x := by
  cases x <;> simp [fadd]

theorem fadd_comm (a b : Option ℚ) : fadd a b = fadd b a := by
  cases a <;> cases b <;> simp [fadd, add_comm]

theorem fadd_assoc (a b c : Option ℚ) :
    fadd (fadd a b) c = fadd a (fadd b c) := by
  cases a <;> cases b <;> cases c <;> simp [fadd, add_assoc]

theorem sumM_nil : sumM [] = some 0 := rfl

theorem sumM_cons (a : Option ℚ) (l : List (Option ℚ)) :
    sumM (a :: l) = fadd a (sumM l) := rfl

theorem sumM_append (l1 l2 : List (Option ℚ)) :
    sumM (l1 ++ l2) = fadd (sumM l1) (sumM l2) := by
  induction l1 with
  | nil => simp [sumM_nil, fadd_zero_left]
  | cons a l ih => simp [sumM_cons, ih, fadd_assoc]

theorem sumM_map_some (l : List α) (g : α → ℚ) :
    sumM (l.map fun a => some (g a)) = some ((l.map g).sum) := by
  induction l with
  | nil => simp [sumM_nil]
  | cons a l ih => simp [sumM_cons, ih, fadd]

theorem sumM_flatMap (l : List α) (f : α → List β) (g : β → Option ℚ) :
    sumM ((l.flatMap f).map g) = sumM (l.map fun a => sumM ((f a).map g)) := by
  induction l with
  | nil => rfl
  | cons a l ih =>
    simp only [List.flatMap_cons, List.map_append, sumM_append, ih,
      List.map_cons, sumM_cons]

/-! ### Characterizing the double-loop accumulation -/

theorem bump_apply (f : ℕ → Option ℚ) (i : ℕ) (v : Option ℚ) (k : ℕ) :
    bump f i v k = if i = k then fadd (f k) v else f k := by
  by_cases h : i = k
  · subst h; simp [bump]
  · simp [bump, Function.update_apply, h, Ne.symm h]

/-- The combined contribution that the pair `ij` makes to the accumulator
entry of index `k`: once if `ij.1 = k`, once more if `ij.2 = k`. -/
def pairTerm (sq : ℚ → ℚ) (c : List Star) (k : ℕ) (ij : ℕ × ℕ) : Option ℚ :=
  fadd (if ij.1 = k then pairContrib sq c ij else some 0)
    (if ij.2 = k then pairContrib sq c ij else some 0)

theorem potStepPar_apply (sq : ℚ → ℚ) (c : List Star) (f : ℕ → Option ℚ)
    (ij : ℕ × ℕ) (k : ℕ) :
    potStepPar sq c f ij k = fadd (f k) (pairTerm sq c k ij) := by
  simp only [potStepPar, pairTerm, bump_apply]
  by_cases h1 : ij.1 = k <;> by_cases h2 : ij.2 = k <;>
    simp [h1, h2, fadd_assoc, fadd_zero_left, fadd_zero_right]

theorem foldl_potStepPar_apply (sq : ℚ → ℚ) (c : List Star)
    (L : List (ℕ × ℕ)) (f : ℕ → Option ℚ) (k : ℕ) :
    L.foldl (potStepPar sq c) f k
      = fadd (f k) (sumM (L.map (pairTerm sq c k))) := by
  induction L generalizing f with
  | nil => simp [sumM_nil, fadd_zero_right]
  | cons ij L ih =>
    simp only [List.foldl_cons, ih, potStepPar_apply, List.map_cons, sumM_cons]
    rw [fadd_assoc]

theorem foldl_potStep_fst (sq : ℚ → ℚ) (c : List Star) (L : List (ℕ × ℕ))
    (f : ℕ → Option ℚ) (rep : List (ℕ × ℕ)) :
    (L.foldl (potStep sq c) (f, rep)).1 = L.foldl (potStepPar sq c) f := by
  induction L generalizing f rep with
  | nil => rfl
  | cons ij L ih => simp only [List.foldl_cons, potStep, ih]

theorem mem_innerPairs {i n : ℕ} {ij : ℕ × ℕ} :
    ij ∈ innerPairs i n ↔ ij.1 = i ∧ i < ij.2 ∧ ij.2 < n := by
  cases ij with
  | mk a b =>
    simp only [innerPairs, List.mem_map, List.mem_range'_1, Prod.mk.injEq]
    constructor
    · rintro ⟨j, ⟨hj1, hj2⟩, rfl, rfl⟩
      omega
    · rintro ⟨rfl, h1, h2⟩
      exact ⟨b, ⟨by omega, by omega⟩, rfl, rfl⟩

theorem mem_pairs {n : ℕ} {ij : ℕ × ℕ} :
    ij ∈ pairs n ↔ ij.1 < ij.2 ∧ ij.2 < n := by
  simp only [pairs, List.mem_flatMap, List.mem_range, mem_innerPairs]
  constructor
  · rintro ⟨i, hi, rfl, h1, h2⟩
    exact ⟨h1, h2⟩
  · rintro ⟨h1, h2⟩
    exact ⟨ij.1, by omega, rfl, h1, h2⟩

theorem innerPairs_nodup (i n : ℕ) : (innerPairs i n).Nodup := by
  apply List.Nodup.map
  · intro a b hab
    simpa using hab
  · exact List.nodup_range' _ _

theorem pairs_nodup (n : ℕ) : (pairs n).Nodup := by
  rw [pairs, List.nodup_flatMap]
  refine ⟨fun i _ => innerPairs_nodup i n, ?_⟩
  apply List.Pairwise.imp ?_ (List.nodup_range (n := n - 1))
  intro i j hij
  intro ij h1 h2
  rw [mem_innerPairs] at h1 h2
  exact hij (h1.1 ▸ h2.1.symm ▸ rfl)

theorem getD_map_range (f : ℕ → Option ℚ) {k n : ℕ} (hk : k < n) :
    ((List.range n).map f).getD k none = f k := by
  rw [List.getD_eq_getElem?_getD, List.getElem?_map, List.getElem?_range hk]
  rfl

/-! ### Concrete inputs -/

/-- A square-root table adequate for coincident particles: only `sq 0` is
ever consulted, and `sqrt 0 = 0`. -/
def sqZero : ℚ → ℚ := fun _ => 0

/-- A square-root table adequate for two particles at distance 2:
`sqrt 4 = 2` (and `sqrt 0 = 0` for the never-consulted diagonal). -/
def sqFour : ℚ → ℚ := fun q => if q = 4 then 2 else 0

/-- Two unit-mass particles at distance `d = 2` along the x-axis. -/
def twoEqualStars : List Star :=
  [{ x := 0, y := 0, z := 0, m := 1 }, { x := 2, y := 0, z := 0, m := 1 }]

/-! ### C9: degenerate N -/

/-- C9: the pairwise summation engine handles degenerate N: for N=0,
`_potential_energy` returns the empty per-particle array (and no warnings)
and `_weighted_inverse_distance_sum` returns total 0; for N=1 the
per-particle array is `[0]` and the total is 0; no division by zero occurs
(every returned entry is finite, i.e. `some`). -/
theorem pairwise_engine_degenerate_N (sq : ℚ → ℚ) :
    potential_energy sq [] = ([], []) ∧
    weighted_inverse_distance_sum sq [] = some 0 ∧
    ∀ s : Star,
      potential_energy sq [s] = ([some 0], []) ∧
      weighted_inverse_distance_sum sq [s] = some 0 :=
  ⟨rfl, rfl, fun _ => ⟨rfl, rfl⟩⟩

/-! ### C1: zero-distance behaviour of the engine -/

theorem distance_symm (sq : ℚ → ℚ) (a b : Star) :
    distance sq a b = distance sq b a := by
  unfold distance
  congr 1
  ring

/-- C2 counterexample: for two unit-mass particles at distance `d = 2` the
code returns `r_v = (Σm)²/(2·Σ m_i m_j/d) = 4 = 2d`, not `d/2 = 1` as the
claim states. -/
theorem virial_radius_two_body_counterexample :
    virial_radius_inverse_distance sqFour twoEqualStars = some 4 ∧
    ¬ virial_radius_inverse_distance sqFour twoEqualStars = some (2 / 2) := by
  have hp : pairs twoEqualStars.length = [(0, 1)] := rfl
  have hws : weighted_inverse_distance_sum sqFour twoEqualStars = some (1 / 2) := by
    rw [weighted_inverse_distance_sum, hp]
    norm_num [sget, twoEqualStars, distance, sqFour, fdiv, fadd]
  rw [virial_radius_inverse_distance, hws]
  norm_num [fdiv, twoEqualStars]

/-- C2 amended: for a cluster of exactly two equal-mass particles (mass
`m ≠ 0`) separated by distance `d ≠ 0`, the inverse-distance virial radius
`(Σmass)²/(2·Σ mass_i*mass_j/distance(i,j))` equals `2*d` exactly. -/
theorem virial_radius_two_body (sq : ℚ → ℚ) (s1 s2 : Star) (m d : ℚ)
    (h1 : s1.m = m) (h2 : s2.m = m) (hm : m ≠ 0)
    (hd : distance sq s1 s2 = d) (hd0 : d ≠ 0) :
    virial_radius_inverse_distance sq [s1, s2] = some (2 * d) := by
  have hsget0 : sget [s1, s2] 0 = s1 := rfl
  have hsget1 : sget [s1, s2] 1 = s2 := rfl
  have hpairs : pairs ([s1, s2].length) = [(0, 1)] := rfl
  have hws : weighted_inverse_distance_sum sq [s1, s2] = some (m * m / d) := by
    rw [weighted_inverse_distance_sum, hpairs]
    simp [hsget0, hsget1, h1, h2, hd, fdiv, hd0, fadd]
  rw [virial_radius_inverse_distance, hws]
  have hden : 2 * (m * m / d) ≠ 0 := by
    have := div_ne_zero (mul_ne_zero hm hm) hd0
    simpa using this
  simp only [fdiv, if_neg hden]
  congr 1
  simp only [List.map_cons, List.map_nil, List.sum_cons, List.sum_nil, h1, h2]
  field_simp
  ring

/-- Witness for the amended C2 theorem at `m = 1`, `d = 2`. -/
theorem virial_radius_two_body_witness :
    (({ x := 0, y := 0, z := 0, m := 1 } : Star).m = 1 ∧
      ({ x := 2, y := 0, z := 0, m := 1 } : Star).m = 1 ∧
      (1 : ℚ) ≠ 0 ∧
      distance sqFour { x := 0, y := 0, z := 0, m := 1 }
        { x := 2, y := 0, z := 0, m := 1 } = 2 ∧ (2 : ℚ) ≠ 0) ∧
    virial_radius_inverse_distance sqFour
      [{ x := 0, y := 0, z := 0, m := 1 }, { x := 2, y := 0, z := 0, m := 1 }]
      = some (2 * 2) :=
  ⟨⟨rfl, rfl, by norm_num, by norm_num [distance, sqFour], by norm_num⟩,
    virial_radius_two_body sqFour _ _ 1 2 rfl rfl (by norm_num)
      (by norm_num [distance, sqFour]) (by norm_num)⟩

/-! ### Bridging list sums and Finset sums -/

theorem listmap_sum_range' (f : ℕ → ℚ) :
    ∀ n s : ℕ, ((List.range' s n).map f).sum = ∑ j ∈ Finset.Ico s (s + n), f j := by
  intro n
  induction n with
  | zero => intro s; simp
  | succ n ih =>
    intro s
    rw [List.range'_succ, List.map_cons, List.sum_cons, ih (s + 1),
      Finset.sum_eq_sum_Ico_succ_bot (by omega : s < s + (n + 1)),
      show s + (n + 1) = s + 1 + n by omega]

theorem listmap_sum_range (f : ℕ → ℚ) (n : ℕ) :
    ((List.range n).map f).sum = ∑ j ∈ Finset.range n, f j := by
  rw [List.range_eq_range', listmap_sum_range' f n 0, Finset.range_eq_Ico]
  simp

theorem listmap_sum_flatMap (l : List α) (f : α → List β) (g : β → ℚ) :
    ((l.flatMap f).map g).sum = (l.map fun a => ((f a).map g).sum).sum := by
  induction l with
  | nil => rfl
  | cons a l ih =>
    simp only [List.flatMap_cons, List.map_append, List.sum_append, ih,
      List.map_cons, List.sum_cons]

/-! ### The exact per-pair kernel value -/

/-- The exact rational value of the gravitational pair kernel
`-mass_i*mass_j / distance(i,j)` (meaningful when the distance is nonzero). -/
def qContrib (sq : ℚ → ℚ) (c : List Star) (i j : ℕ) : ℚ :=
  -((sget c i).m * (sget c j).m) / distance sq (sget c i) (sget c j)

theorem qContrib_symm (sq : ℚ → ℚ) (c : List Star) (i j : ℕ) :
    qContrib sq c i j = qContrib sq c j i := by
  unfold qContrib
  rw [distance_symm, mul_comm]

/-- The exact rational contribution of the pair `ij` to accumulator entry
`k` (the `some`-valued shadow of `pairTerm`). -/
def qTerm (sq : ℚ → ℚ) (c : List Star) (k : ℕ) (ij : ℕ × ℕ) : ℚ :=
  (if ij.1 = k then qContrib sq c ij.1 ij.2 else 0) +
    (if ij.2 = k then qContrib sq c ij.1 ij.2 else 0)

theorem pairTerm_eq_some (sq : ℚ → ℚ) (c : List Star) (k : ℕ) (ij : ℕ × ℕ)
    (hdist : distance sq (sget c ij.1) (sget c ij.2) ≠ 0) :
    pairTerm sq c k ij = some (qTerm sq c k ij) := by
  have hc : pairContrib sq c ij = some (qContrib sq c ij.1 ij.2) := by
    simp [pairContrib, fdiv, hdist, qContrib]
  simp only [pairTerm, qTerm, hc]
  split_ifs <;> simp [fadd]

/-! ### C5: the per-particle sum of the sequential engine -/

/-- C5: when no two distinct particles coincide, the `i<j` double loop of
`_potential_energy` gives every particle `k` the per-particle value
`Σ_{j≠k} -mass_k*mass_j/distance(k,j)`; moreover the pair list of the loop
never contains a self pair `(i,i)` and never repeats a pair. -/
theorem potential_energy_per_particle (sq : ℚ → ℚ) (c : List Star) (k : ℕ)
    (hk : k < c.length)
    (H : ∀ i ∈ Finset.range c.length, ∀ j ∈ Finset.range c.length,
      i ≠ j → distance sq (sget c i) (sget c j) ≠ 0) :
    (potential_energy sq c).1.getD k none
      = some (∑ j ∈ (Finset.range c.length).erase k,
          -((sget c k).m * (sget c j).m) /
            distance sq (sget c k) (sget c j)) ∧
    (pairs c.length).Nodup ∧
    (∀ ij ∈ pairs c.length, ij.1 < ij.2 ∧ ij.2 < c.length) := by
  refine ⟨?_, pairs_nodup _, fun ij h => mem_pairs.mp h⟩
  have hmain :
      (potential_energy sq c).1.getD k none
        = some (∑ j ∈ (Finset.range c.length).erase k, qContrib sq c k j) := by
    simp only [potential_energy]
    rw [getD_map_range _ hk, foldl_potStep_fst, foldl_potStepPar_apply,
      fadd_zero_left]
    rw [List.map_congr_left (fun ij hij => pairTerm_eq_some sq c k ij ?_)]
    swap
    · have h2 := mem_pairs.mp hij
      exact H ij.1 (by simp; omega) ij.2 (by simp [h2.2]) (by omega)
    rw [sumM_map_some]
    congr 1
    set n := c.length with hn
    rw [pairs, listmap_sum_flatMap, listmap_sum_range]
    have hinner : ∀ i ∈ Finset.range (n - 1),
        ((innerPairs i n).map (qTerm sq c k)).sum
          = ∑ j ∈ Finset.Ico (i + 1) n, qTerm sq c k (i, j) := by
      intro i hi
      rw [innerPairs, List.map_map]
      simp only [Function.comp_def]
      rw [listmap_sum_range' (fun j => qTerm sq c k (i, j)) (n - (i + 1)) (i + 1),
        show i + 1 + (n - (i + 1)) = n by
          simp only [Finset.mem_range] at hi; omega]
    rw [Finset.sum_congr rfl hinner]
    have hsplit : ∀ i ∈ Finset.range (n - 1),
        (∑ j ∈ Finset.Ico (i + 1) n, qTerm sq c k (i, j))
          = (if i = k then ∑ j ∈ Finset.Ico (i + 1) n, qContrib sq c i j else 0)
            + ∑ j ∈ Finset.Ico (i + 1) n,
                (if j = k then qContrib sq c i j else 0) := by
      intro i _
      simp only [qTerm]
      rw [Finset.sum_add_distrib]
      congr 1
      by_cases h : i = k
      · simp [h]
      · simp [h]
    rw [Finset.sum_congr rfl hsplit, Finset.sum_add_distrib]
    have hA : (∑ i ∈ Finset.range (n - 1),
        (if i = k then ∑ j ∈ Finset.Ico (i + 1) n, qContrib sq c i j else 0))
          = ∑ j ∈ Finset.Ico (k + 1) n, qContrib sq c k j := by
      rw [Finset.sum_ite_eq' (Finset.range (n - 1)) k]
      by_cases hcase : k ∈ Finset.range (n - 1)
      · rw [if_pos hcase]
      · rw [if_neg hcase]
        simp only [Finset.mem_range] at hcase
        have : Finset.Ico (k + 1) n = ∅ := by
          apply Finset.Ico_eq_empty
          omega
        rw [this, Finset.sum_empty]
    have hB : (∑ i ∈ Finset.range (n - 1),
        ∑ j ∈ Finset.Ico (i + 1) n, (if j = k then qContrib sq c i j else 0))
          = ∑ i ∈ Finset.range k, qContrib sq c k i := by
      have hB1 : ∀ i ∈ Finset.range (n - 1),
          (∑ j ∈ Finset.Ico (i + 1) n, (if j = k then qContrib sq c i j else 0))
            = (if i < k then qContrib sq c i k else 0) := by
        intro i _
        rw [Finset.sum_ite_eq' (Finset.Ico (i + 1) n) k]
        apply if_congr _ rfl rfl
        simp only [Finset.mem_Ico]
        omega
      rw [Finset.sum_congr rfl hB1, ← Finset.sum_filter]
      have hfil : (Finset.range (n - 1)).filter (· < k) = Finset.range k := by
        ext a
        simp only [Finset.mem_filter, Finset.mem_range]
        omega
      rw [hfil]
      exact Finset.sum_congr rfl fun i _ => qContrib_symm sq c i k
    rw [hA, hB]
    have hun : (Finset.range n).erase k
        = Finset.range k ∪ Finset.Ico (k + 1) n := by
      ext a
      simp only [Finset.mem_erase, Finset.mem_range, Finset.mem_union,
        Finset.mem_Ico]
      omega
    have hdisj : Disjoint (Finset.range k) (Finset.Ico (k + 1) n) := by
      rw [Finset.disjoint_left]
      intro a ha hb
      simp only [Finset.mem_range] at ha
      simp only [Finset.mem_Ico] at hb
      omega
    rw [hun, Finset.sum_union hdisj, add_comm]
  exact hmain

/-- Witness for C5 at the two-star cluster. -/
theorem potential_energy_per_particle_witness :
    ((0 : ℕ) < twoEqualStars.length ∧
      (∀ i ∈ Finset.range twoEqualStars.length,
        ∀ j ∈ Finset.range twoEqualStars.length,
          i ≠ j → distance sqFour (sget twoEqualStars i)
            (sget twoEqualStars j) ≠ 0)) ∧
    ((potential_energy sqFour twoEqualStars).1.getD 0 none
      = some (∑ j ∈ (Finset.range twoEqualStars.length).erase 0,
          -((sget twoEqualStars 0).m * (sget twoEqualStars j).m) /
            distance sqFour (sget twoEqualStars 0) (sget twoEqualStars j)) ∧
    (pairs twoEqualStars.length).Nodup ∧
    (∀ ij ∈ pairs twoEqualStars.length,
      ij.1 < ij.2 ∧ ij.2 < twoEqualStars.length)) := by
  have hH : ∀ i ∈ Finset.range twoEqualStars.length,
      ∀ j ∈ Finset.range twoEqualStars.length,
        i ≠ j → distance sqFour (sget twoEqualStars i)
          (sget twoEqualStars j) ≠ 0 := by
    intro i hi j hj hne
    fin_cases hi <;> fin_cases hj <;>
      simp_all [sget, twoEqualStars, distance, sqFour] <;> norm_num
  exact ⟨⟨by norm_num [twoEqualStars], hH⟩,
    potential_energy_per_particle sqFour twoEqualStars 0
      (by norm_num [twoEqualStars]) hH⟩

/-! ### C6: parallel/sequential equivalence -/

/-- C6: under exact arithmetic the parallel path
(`_potential_energy_parallel`, modelled with the spec's thread-local
accumulation and fork-join reduction) and the sequential path
(`_potential_energy`) compute the same per-particle array, for every
input cluster. -/
theorem potential_energy_parallel_eq_sequential (sq : ℚ → ℚ) (c : List Star) :
    potential_energy_parallel sq c = (potential_energy sq c).1 := by
  simp only [potential_energy_parallel, potential_energy]
  apply List.map_congr_left
  intro k _
  rw [List.map_map, foldl_potStep_fst, foldl_potStepPar_apply, fadd_zero_left,
    pairs, sumM_flatMap]
  apply congrArg
  apply List.map_congr_left
  intro i _
  simp only [Function.comp_apply]
  rw [foldl_potStepPar_apply, fadd_zero_left]

/-! ### The iterative centre finders -/

/-- A full particle view of the StarCluster arrays consumed by the centre
finders: `x, y, z, vx, vy, vz, m, id`. -/
structure Particle where
  x : ℚ
  y : ℚ
  z : ℚ
  vx : ℚ
  vy : ℚ
  vz : ℚ
  m : ℚ
  pid : ℤ
deriving DecidableEq, Inhabited

/-- The 6-tuple `(xc, yc, zc, vxc, vyc, vzc)` returned by the centre
finders. -/
structure Centre where
  xc : ℚ
  yc : ℚ
  zc : ℚ
  vxc : ℚ
  vyc : ℚ
  vzc : ℚ
deriving DecidableEq, Inhabited

def zeroCentre : Centre := ⟨0, 0, 0, 0, 0, 0⟩

/-- numpy boolean-mask selection `arr[indx]` (mask and array have equal
length in every call site). -/
def maskFilter (l : List α) (mask : List Bool) : List α :=
  ((l.zip mask).filter fun pm => pm.2).map fun pm => pm.1

/-- `np.amax` raises `ValueError` on an empty array (modelled as `none`). -/
def amax (l : List ℚ) : Option ℚ :=
  match l with
  | [] => none
  | a :: rest => some (rest.foldl max a)

/-- State of the `find_centre_of_density` loop: the working (translated)
coordinates of the selected stars, the current sphere radius `rlim`, and
the accumulated centre `(xdc, ydc, zdc, vxdc, vydc, vzdc)`. -/
structure FcdState where
  stars : List Particle
  rlim : ℚ
  centre : Centre
deriving DecidableEq, Inhabited

/-- The sphere selection `indx = r2 < rlim**2` of one iteration. -/
def sphereSel (s : FcdState) : List Particle :=
  s.stars.filter fun p => p.x ^ 2 + p.y ^ 2 + p.z ^ 2 < s.rlim ^ 2

/-- `nc = np.sum(indx)`. -/
def fcdNc (s : FcdState) : ℕ :=
  (sphereSel s).length

/-- `mc = np.sum(m[indx])`. -/
def fcdMc (s : FcdState) : ℚ :=
  ((sphereSel s).map (·.m)).sum

/-- The mass-weighted centroid `(xc, ..., vzc)` of one iteration; the source
sets it to zero when `mc == 0`, avoiding the division. -/
def fcdCentroid (s : FcdState) : Centre :=
  let sel := sphereSel s
  let mc := fcdMc s
  if mc = 0 then ⟨0, 0, 0, 0, 0, 0⟩
  else
    ⟨(sel.map fun p => p.m * p.x).sum / mc,
     (sel.map fun p => p.m * p.y).sum / mc,
     (sel.map fun p => p.m * p.z).sum / mc,
     (sel.map fun p => p.m * p.vx).sum / mc,
     (sel.map fun p => p.m * p.vy).sum / mc,
     (sel.map fun p => p.m * p.vz).sum / mc⟩

/-- The update gate `(mc > 0) and (nc > 100)` of `find_centre_of_density`. -/
def fcdGate (s : FcdState) : Prop :=
  0 < fcdMc s ∧ 100 < fcdNc s

instance fcdGateDecidable (s : FcdState) : Decidable (fcdGate s) :=
  inferInstanceAs (Decidable (_ ∧ _))

/-- One successful iteration of `find_centre_of_density`: translate every
star by the centroid, add the centroid to the accumulated centre and shrink
`rlim` by the factor 0.8. -/
def fcdUpdate (s : FcdState) : FcdState :=
  let c := fcdCentroid s
  { stars := s.stars.map fun p =>
      { p with x := p.x - c.xc, y := p.y - c.yc, z := p.z - c.zc,
               vx := p.vx - c.vxc, vy := p.vy - c.vyc, vz := p.vz - c.vzc },
    rlim := s.rlim * 0.8,
    centre := ⟨s.centre.xc + c.xc, s.centre.yc + c.yc, s.centre.zc + c.zc,
               s.centre.vxc + c.vxc, s.centre.vyc + c.vyc,
               s.centre.vzc + c.vzc⟩ }

/-- The `while (rlim > rmin) and (n < nmax)` loop of
`find_centre_of_density` (functions.py:224-263).  `n` increases by exactly 1
per iteration, so the remaining budget `nmax - n` serves as structural
fuel: `fuel = 0` is exactly the exhausted `n < nmax` test. -/
def fcdLoop (rmin : ℚ) : ℕ → FcdState → Centre
  | 0, s => s.centre
  | fuel + 1, s =>
    if rmin < s.rlim then
      if fcdGate s then fcdLoop rmin fuel (fcdUpdate s)
      else s.centre
    else s.centre

/-- Embeds `find_centre_of_density` (functions.py:157-263): mask selection,
translation to the start centre, `rlim = np.amax(r)` when `rmax is None`
(which raises `ValueError` on an empty selection, modelled `none`), then
the shrinking loop. -/
def find_centre_of_density (sq : ℚ → ℚ) (cluster : List Particle)
    (start : Centre) (indx : Option (List Bool)) (rmin : ℚ)
    (rmax : Option ℚ) (nmax : ℕ) : Option Centre :=
  let mask := indx.getD (List.replicate cluster.length true)
  let sel := maskFilter cluster mask
  let stars := sel.map fun p =>
    { p with x := p.x - start.xc, y := p.y - start.yc, z := p.z - start.zc,
             vx := p.vx - start.vxc, vy := p.vy - start.vyc,
             vz := p.vz - start.vzc }
  let rlim0 := match rmax with
    | none => amax (stars.map fun p => sq (p.x ^ 2 + p.y ^ 2 + p.z ^ 2))
    | some rm => some rm
  match rlim0 with
  | none => none
  | some rlim => some (fcdLoop rmin nmax ⟨stars, rlim, start⟩)

theorem fcdLoop_empty (rmin : ℚ) (fuel : ℕ) (rlim : ℚ) (centre : Centre) :
    fcdLoop rmin fuel ⟨[], rlim, centre⟩ = centre := by
  cases fuel with
  | zero => rfl
  | succ n =>
    have hg : ¬ fcdGate ⟨[], rlim, centre⟩ := by
      simp [fcdGate, fcdMc, sphereSel]
    unfold fcdLoop
    simp [hg]

/-! ### C3: degenerate input to `find_centre_of_density` -/

/-- C3 counterexample: called with zero particles and `rmax=None`,
`find_centre_of_density` takes `np.amax` of an empty array, which raises
`ValueError` — it aborts (`none`) instead of returning a centre. -/
theorem find_centre_of_density_empty_counterexample :
    find_centre_of_density sqZero [] zeroCentre none (1 / 10) none 100
      = none := rfl

/-- C3 amended: with zero particles selected `find_centre_of_density`
returns a well-defined centre (the start centre) only when `rmax` is
given; with `rmax=None` the same input raises `ValueError` inside
`np.amax` (the counterexample). -/
theorem find_centre_of_density_empty_selection (sq : ℚ → ℚ)
    (cluster : List Particle) (mask : List Bool) (start : Centre)
    (rmin rmax : ℚ) (nmax : ℕ) (h : maskFilter cluster mask = []) :
    find_centre_of_density sq cluster start (some mask) rmin (some rmax) nmax
      = some start := by
  simp only [find_centre_of_density, Option.getD_some, h, List.map_nil]
  exact congrArg some (fcdLoop_empty rmin nmax rmax start)

/-- Witness for C3 amended: one particle, a mask selecting nothing. -/
theorem find_centre_of_density_empty_selection_witness :
    (maskFilter [(default : Particle)] [false] = []) ∧
    find_centre_of_density sqZero [(default : Particle)] zeroCentre
      (some [false]) (1 / 10) (some 5) 100 = some zeroCentre :=
  ⟨rfl, find_centre_of_density_empty_selection sqZero _ _ _ _ _ _ rfl⟩

/-! ### C7: the update gate invariant of the shrinking loop -/

/-- C7: every run of the `find_centre_of_density` loop produces the centre
reached from the initial state by some number `k` of `fcdUpdate` steps,
each performed only while the loop condition held and the gate
`mc > 0 ∧ nc > 100` held; and if the loop stopped with budget and radius
remaining, it did so precisely because the gate failed — the centroid of a
too-small or massless population is never added. -/
theorem fcdLoop_gate_invariant (rmin : ℚ) (fuel : ℕ) (s : FcdState) :
    ∃ k ≤ fuel,
      fcdLoop rmin fuel s = (fcdUpdate^[k] s).centre ∧
      (∀ i < k, rmin < (fcdUpdate^[i] s).rlim ∧ fcdGate (fcdUpdate^[i] s)) ∧
      (k < fuel → rmin < (fcdUpdate^[k] s).rlim → ¬ fcdGate (fcdUpdate^[k] s)) := by
  induction fuel generalizing s with
  | zero =>
    exact ⟨0, Nat.le_refl 0, rfl, fun i hi => absurd hi (Nat.not_lt_zero i),
      fun h => absurd h (by omega)⟩
  | succ n ih =>
    have hstep : fcdLoop rmin (n + 1) s
        = if rmin < s.rlim then
            (if fcdGate s then fcdLoop rmin n (fcdUpdate s) else s.centre)
          else s.centre := rfl
    by_cases hr : rmin < s.rlim
    · by_cases hg : fcdGate s
      · obtain ⟨k, hk, hres, hinv, hstop⟩ := ih (fcdUpdate s)
        refine ⟨k + 1, by omega, ?_, ?_, ?_⟩
        · rw [hstep, if_pos hr, if_pos hg, hres, Function.iterate_succ_apply]
        · intro i hi
          cases i with
          | zero => exact ⟨hr, hg⟩
          | succ i' =>
            rw [Function.iterate_succ_apply]
            exact hinv i' (by omega)
        · intro h1 h2
          rw [Function.iterate_succ_apply]
          rw [Function.iterate_succ_apply] at h2
          exact hstop (by omega) h2
      · refine ⟨0, by omega, ?_, fun i hi => absurd hi (by omega),
          fun _ _ => hg⟩
        rw [hstep, if_pos hr, if_neg hg]
        rfl
    · refine ⟨0, by omega, ?_, fun i hi => absurd hi (by omega),
        fun _ h2 => absurd h2 hr⟩
      rw [hstep, if_neg hr]
      rfl

/-! ### C8: zero enclosed mass terminates immediately -/

/-- C8: whenever an iteration of the `find_centre_of_density` loop finds
total enclosed mass `mc = 0`, the run returns the accumulated centre from
before that iteration, unchanged (an exact, finite 6-tuple). -/
theorem fcdLoop_mc_zero_terminates (rmin : ℚ) (fuel : ℕ) (s : FcdState)
    (h : fcdMc s = 0) : fcdLoop rmin fuel s = s.centre := by
  cases fuel with
  | zero => rfl
  | succ n =>
    have hg : ¬ fcdGate s := by simp [fcdGate, h]
    unfold fcdLoop
    simp [hg]

/-- A state whose single star lies exactly on the sphere boundary
(`r2 < rlim**2` is strict, so the sphere is empty and `mc = 0`). -/
def fcdOutsideState : FcdState :=
  { stars := [{ x := 5, y := 0, z := 0, vx := 0, vy := 0, vz := 0, m := 1,
                pid := 0 }],
    rlim := 5,
    centre := ⟨1, 2, 3, 4, 5, 6⟩ }

/-- Witness for C8 at a state with an empty sphere. -/
theorem fcdLoop_mc_zero_terminates_witness :
    fcdMc fcdOutsideState = 0 ∧
    fcdLoop (1 / 10) 3 fcdOutsideState = (⟨1, 2, 3, 4, 5, 6⟩ : Centre) := by
  have h : fcdMc fcdOutsideState = 0 := by
    norm_num [fcdMc, sphereSel, fcdOutsideState]
  exact ⟨h, fcdLoop_mc_zero_terminates (1 / 10) 3 fcdOutsideState h⟩

/-! ### The sigma-clipped fallback mode of `find_centre` -/

/-- The per-star state of the `density=False` branch: centred coordinates
`x, y, z` and the star's id (`i_d`). -/
structure SigStar where
  x : ℚ
  y : ℚ
  z : ℚ
  sid : ℤ
deriving DecidableEq, Inhabited

/-- `np.mean`. -/
def meanQ (l : List ℚ) : ℚ :=
  l.sum / (l.length : ℚ)

/-- `np.std`: the population standard deviation
`√(mean((x - mean x)²))`. -/
def stdQ (sq : ℚ → ℚ) (l : List ℚ) : ℚ :=
  sq ((l.map fun t => (t - meanQ l) ^ 2).sum / (l.length : ℚ))

/-- `r = np.sqrt(x**2 + y**2 + z**2)` of one star. -/
def sigRadius (sq : ℚ → ℚ) (p : SigStar) : ℚ :=
  sq (p.x ^ 2 + p.y ^ 2 + p.z ^ 2)

/-- `x = x[indx] - np.mean(x[indx])` (and likewise `y`, `z`) after a clip. -/
def recentre (kept : List SigStar) : List SigStar :=
  let mx := meanQ (kept.map (·.x))
  let my := meanQ (kept.map (·.y))
  let mz := meanQ (kept.map (·.z))
  kept.map fun p => { p with x := p.x - mx, y := p.y - my, z := p.z - mz }

/-- The clip `indx = r < nsigma * np.std(r)` of one iteration. -/
def clipKept (sq : ℚ → ℚ) (nsigma : ℚ) (stars : List SigStar) :
    List SigStar :=
  stars.filter fun p =>
    sigRadius sq p < nsigma * stdQ sq (stars.map (sigRadius sq))

/-- Outcome of one test of the clipping loop: leave the loop carrying the
current population, or iterate on a clipped, recentred population. -/
inductive ClipResult where
  | done (stars : List SigStar)
  | next (stars : List SigStar)
deriving DecidableEq

/-- One test-and-iterate step of the `while len(r) > nsphere` clipping loop
of `find_centre` (functions.py:131-142): if the population still exceeds
`nsphere`, clip at `nsigma` standard deviations; a clip that would leave
more than `nsphere` stars is applied (keeping ids, recentring coordinates),
anything else breaks with the pre-clip population. -/
def sigmaClipStep (sq : ℚ → ℚ) (nsigma : ℚ) (nsphere : ℕ)
    (stars : List SigStar) : ClipResult :=
  if stars.length > nsphere then
    if (clipKept sq nsigma stars).length > nsphere then
      .next (recentre (clipKept sq nsigma stars))
    else .done stars
  else .done stars

/-- The clipping loop.  The source `while` has no iteration bound, so the
embedding is fuel-indexed: `none` means the loop is still running after
`fuel` loop tests. -/
def sigmaClipLoop (sq : ℚ → ℚ) (nsigma : ℚ) (nsphere : ℕ) :
    ℕ → List SigStar → Option (List SigStar)
  | 0, _ => none
  | fuel + 1, stars =>
    match sigmaClipStep sq nsigma nsphere stars with
    | .done s => some s
    | .next s => sigmaClipLoop sq nsigma nsphere fuel s

theorem sigmaClipLoop_none_of_fix (sq : ℚ → ℚ) (nsigma : ℚ) (nsphere : ℕ)
    (stars : List SigStar)
    (h : sigmaClipStep sq nsigma nsphere stars = .next stars) :
    ∀ fuel, sigmaClipLoop sq nsigma nsphere fuel stars = none := by
  intro fuel
  induction fuel with
  | zero => rfl
  | succ n ih =>
    unfold sigmaClipLoop
    rw [h]
    exact ih

/-! ### C4: (non-)termination of the clipping loop -/

/-- A square-root table correct at the three values consulted by the
two-shell configuration: `√1 = 1`, `√16 = 4`, `√(9/4) = 3/2`. -/
def sqClip : ℚ → ℚ := fun q =>
  if q = 1 then 1 else if q = 16 then 4 else if q = 9 / 4 then 3 / 2 else 0

/-- A symmetric two-shell configuration: one star at `x = ±1` and one at
`x = ±4` each.  Radii `{1, 1, 4, 4}`: mean `5/2`, standard deviation `3/2`,
and with `nsigma = 3` the clip keeps every star (`4 < 9/2`); the centroid
is 0, so recentring changes nothing. -/
def twoShellStars : List SigStar :=
  [{ x := 1, y := 0, z := 0, sid := 0 }, { x := -1, y := 0, z := 0, sid := 1 },
   { x := 4, y := 0, z := 0, sid := 2 }, { x := -4, y := 0, z := 0, sid := 3 }]

theorem twoShell_radii :
    twoShellStars.map (sigRadius sqClip) = [1, 1, 4, 4] := by
  norm_num [twoShellStars, sigRadius, sqClip]

theorem twoShell_std :
    stdQ sqClip (twoShellStars.map (sigRadius sqClip)) = 3 / 2 := by
  rw [twoShell_radii]
  norm_num [stdQ, meanQ, sqClip]

theorem twoShell_kept : clipKept sqClip 3 twoShellStars = twoShellStars := by
  unfold clipKept
  rw [twoShell_std]
  norm_num [twoShellStars, sigRadius, sqClip]

theorem twoShell_recentre : recentre twoShellStars = twoShellStars := by
  norm_num [recentre, meanQ, twoShellStars]

/-- C4 counterexample: with `nsigma = 3` and `nsphere = 1`, the two-shell
input is a fixed point of the loop body that neither reaches the target
count nor breaks: the clip removes no star, yet the loop does not stop —
it runs forever (here: still running after 100 iterations). -/
theorem sigma_clip_nontermination_counterexample :
    sigmaClipStep sqClip 3 1 twoShellStars = .next twoShellStars ∧
    1 < twoShellStars.length ∧
    sigmaClipLoop sqClip 3 1 100 twoShellStars = none := by
  have hstep : sigmaClipStep sqClip 3 1 twoShellStars = .next twoShellStars := by
    unfold sigmaClipStep
    rw [twoShell_kept, twoShell_recentre]
    norm_num [show twoShellStars.length = 4 from rfl]
  exact ⟨hstep, by norm_num [twoShellStars],
    sigmaClipLoop_none_of_fix sqClip 3 1 twoShellStars hstep 100⟩

/-- C4 amended: one test of the clipping loop either leaves the loop with
the current population unchanged or iterates on the clipped, recentred
population; and it leaves exactly when the population, or the population
the clip would retain, no longer exceeds `nsphere`.  An iteration that
removes no particles but keeps more than `nsphere` does *not* stop the
loop, so for `nsigma` large enough (the counterexample uses 3) the loop
need not terminate at all — termination for every input holds only for the
clipping strengths where each clip must discard the outermost star. -/
theorem sigma_clip_exit_characterization (sq : ℚ → ℚ) (nsigma : ℚ)
    (nsphere : ℕ) (stars : List SigStar) :
    (sigmaClipStep sq nsigma nsphere stars = .done stars ∨
      sigmaClipStep sq nsigma nsphere stars
        = .next (recentre (clipKept sq nsigma stars))) ∧
    (sigmaClipStep sq nsigma nsphere stars = .done stars ↔
      stars.length ≤ nsphere ∨ (clipKept sq nsigma stars).length ≤ nsphere) := by
  unfold sigmaClipStep
  split_ifs with h1 h2
  · refine ⟨Or.inr rfl, ?_, ?_⟩
    · intro h
      exact absurd h (by simp)
    · intro h
      rcases h with h | h <;> omega
  · exact ⟨Or.inl rfl, fun _ => Or.inr (by omega), fun _ => rfl⟩
  · exact ⟨Or.inl rfl, fun _ => Or.inl (by omega), fun _ => rfl⟩

/-! ### `find_centre` and C10 -/

/-- The body of `find_centre` after the mask has been resolved: the
`density=True` branch delegates to `find_centre_of_density`; the
`density=False` branch runs the sigma-clipping loop on centred coordinates
and then takes the mass-weighted centre of mass of the stars whose ids
survived (`indx = np.in1d(cluster.id, i_d)`).  A zero total mass makes all
six divisions `0/0` (`NaN`), modelled `none`; `fuel` bounds the unbounded
clipping `while` loop (`none` = still looping). -/
def find_centre_run (sq : ℚ → ℚ) (cluster : List Particle) (start : Centre)
    (indx : List Bool) (nsigma : ℚ) (nsphere : ℕ) (density : Bool)
    (rmin : ℚ) (rmax : Option ℚ) (nmax fuel : ℕ) : Option Centre :=
  if density then
    find_centre_of_density sq cluster start (some indx) rmin rmax nmax
  else
    let sel := maskFilter cluster indx
    let stars0 : List SigStar := sel.map fun p =>
      ⟨p.x - start.xc, p.y - start.yc, p.z - start.zc, p.pid⟩
    match sigmaClipLoop sq nsigma nsphere fuel stars0 with
    | none => none
    | some finalStars =>
        let ids := finalStars.map (·.sid)
        let members := cluster.filter fun p => p.pid ∈ ids
        let msum := (members.map (·.m)).sum
        if msum = 0 then none
        else
          some ⟨(members.map fun p => p.m * p.x).sum / msum,
                (members.map fun p => p.m * p.y).sum / msum,
                (members.map fun p => p.m * p.z).sum / msum,
                (members.map fun p => p.m * p.vx).sum / msum,
                (members.map fun p => p.m * p.vy).sum / msum,
                (members.map fun p => p.m * p.vz).sum / msum⟩

/-- Embeds `find_centre` (functions.py:48-155): `indx=None` becomes the
all-`True` mask; an explicitly passed mask selecting no star
(`np.sum(indx) == 0.0`) prints "NO SUBSET OF STARS GIVEN" and returns the
all-zero centre immediately. -/
def find_centre (sq : ℚ → ℚ) (cluster : List Particle) (start : Centre)
    (indxOpt : Option (List Bool)) (nsigma : ℚ) (nsphere : ℕ)
    (density : Bool) (rmin : ℚ) (rmax : Option ℚ) (nmax fuel : ℕ) :
    Option Centre :=
  match indxOpt with
  | some indx =>
      if indx.count true = 0 then some zeroCentre
      else
        find_centre_run sq cluster start indx nsigma nsphere density rmin
          rmax nmax fuel
  | none =>
      find_centre_run sq cluster start (List.replicate cluster.length true)
        nsigma nsphere density rmin rmax nmax fuel

/-- C10: `find_centre` called with a subset mask selecting zero particles
returns the all-zero centre immediately (after the diagnostic print),
running neither centring algorithm and raising nothing. -/
theorem find_centre_empty_mask (sq : ℚ → ℚ) (cluster : List Particle)
    (start : Centre) (mask : List Bool) (nsigma : ℚ) (nsphere : ℕ)
    (density : Bool) (rmin : ℚ) (rmax : Option ℚ) (nmax fuel : ℕ)
    (h : mask.count true = 0) :
    find_centre sq cluster start (some mask) nsigma nsphere density rmin
      rmax nmax fuel = some zeroCentre := by
  rw [show find_centre sq cluster start (some mask) nsigma nsphere density
        rmin rmax nmax fuel
      = if mask.count true = 0 then some zeroCentre
        else find_centre_run sq cluster start mask nsigma nsphere density
          rmin rmax nmax fuel from rfl,
    if_pos h]

/-- Witness for C10: a two-star cluster with an all-`False` mask. -/
theorem find_centre_empty_mask_witness :
    ([false, false].count true = 0) ∧
    find_centre sqZero [default, default] zeroCentre (some [false, false])
      1 100 true (1 / 10) none 100 100 = some zeroCentre :=
  ⟨rfl, find_centre_empty_mask sqZero [default, default] zeroCentre
    [false, false] 1 100 true (1 / 10) none 100 100 rfl⟩

end Clustertools
